import Mathlib

/-!
Verification development for the hand-written SAS XPORT Version 5 decoder
of the XPTViewer repository (src/src-tauri/src/xpt_parser.rs).

The decoder is a pure transform from a byte buffer to a structured dataset.
We embed it shallowly:

* bytes are `Nat` values (every byte produced by the program is `< 256`);
* Rust `String` values are `List Char`;
* fallible code returns `Option` / `Except`;
* the only floating-point arithmetic in the source is the IBM
  hexadecimal-float decode `fraction as f64 / 2^56 * 16^(e-64)` followed by
  `format!` with six fractional digits.  Exactly one rounding step occurs
  in that pipeline: the cast `fraction as f64` rounds the 56-bit integer
  fraction to the nearest value with a 53-bit significand, ties to even
  (modelled by `roundFrac53`).  Every later step is an exact power-of-two
  scaling: `(1u64 << 56) as f64` and `16.0.powi(e)` are exact powers of
  two, and multiplying or dividing the cast fraction by them is exact
  because the magnitude stays inside the normal f64 range
  (`2^-312 ≤ |value| ≤ 2^252 = 16^63`, far from both the subnormal and
  the overflow thresholds — so the `is_finite` test in the source never
  fails either).  The decoded double is therefore exactly the rational
  `roundFrac53 fraction * 2^(4*e) / 2^312`, and the fixed-precision
  formatter rounds `|value| * 10^6` to the nearest integer, ties to
  even, on that exact value.
-/

namespace XPT

/-- Record size of the transport format (constants::RECORD_SIZE). -/
def recordSize : Nat := 80

/-- Length of a name string record (constants::NAME_STRING_RECORD_LENGTH). -/
def nameStringRecordLength : Nat := 140

/-- Variable type (enum VariableType). -/
inductive VariableType where
  | Numeric
  | Character
deriving DecidableEq, Repr

/-- One column descriptor of the decoded dataset (struct XPTVariable). -/
structure XPTVariable where
  name : List Char
  label : List Char
  varType : VariableType
  length : Nat
deriving DecidableEq, Repr

/-- One decoded row (struct XPTRow). -/
structure XPTRow where
  values : List (List Char)
deriving DecidableEq, Repr

/-- The decode result (struct XPTDataset). -/
structure XPTDataset where
  title : List Char
  createdDate : Option (List Char)
  modifiedDate : Option (List Char)
  vars : List XPTVariable
  rows : List XPTRow
deriving DecidableEq, Repr

/-- Raw 140-byte descriptor record contents (struct NameStringRecord). -/
structure NameStringRecord where
  varType : Nat
  length : Nat
  name : List Char
  label : List Char
  format : List Char
  position : Nat
deriving DecidableEq, Repr

/-- The error taxonomy of the decoder.  The source reports errors as anyhow
strings; each constructor corresponds to one `anyhow!` message of
`XPTParser::parse`, in source order. -/
inductive XPTError where
  | TooSmall
  | NamestrHeaderNotFound
  | ObsHeaderNotFound
  | InvalidHeaderPositions
  | NameStringBlockTooSmall
  | NoVariableMetadata
  | DescriptorParseFailure
  | ZeroStorageWidth
  | UnresolvableRowWidth
  | ObservationTooSmall
deriving DecidableEq, Repr

/-- ASCII bytes of a literal (all our markers are plain ASCII). -/
def strBytes (s : String) : List Nat := s.toList.map Char.toNat

/-- The NAMESTR section marker searched for by `XPTParser::parse`. -/
def namestrHeader : List Nat :=
  strBytes "HEADER RECORD*******NAMESTR HEADER RECORD!!!!!!!"

/-- The OBS section marker searched for by `XPTParser::parse`. -/
def obsHeader : List Nat :=
  strBytes "HEADER RECORD*******OBS     HEADER RECORD!!!!!!!"

/-- Marker preceding the dataset name (infer_dataset_title). -/
def memberNameMarker : List Nat := strBytes "MEMBER  NAME"

/-- Marker preceding the creation date (XPTParser::parse). -/
def dateCreatedMarker : List Nat := strBytes "DATECREATED"

/-- Marker preceding the modification date (XPTParser::parse). -/
def dateModifiedMarker : List Nat := strBytes "DATEMODIFIED"

/-- Helper for find_bytes: first index at which the pattern is a prefix of
the remaining buffer. -/
def findBytesAux (pattern : List Nat) : List Nat → Nat → Option Nat
  | l, i =>
    if pattern.isPrefixOf l then some i
    else
      match l with
      | [] => none
      | _ :: rest => findBytesAux pattern rest (i + 1)

/-- fn find_bytes: position of the first window of the buffer equal to the
pattern (`data.windows(pattern.len()).position(..)`).  The source never
passes an empty pattern. -/
def findBytes (data pattern : List Nat) : Option Nat :=
  findBytesAux pattern data 0

/-- fn align_to_record_boundary: round an index up to the next multiple of
80, leaving exact multiples unchanged. -/
def alignToRecordBoundary (index : Nat) : Nat :=
  let remainder := index % recordSize
  if remainder = 0 then index else index + (recordSize - remainder)

/-- Rust `char::is_whitespace`: the Unicode White_Space code points. -/
def rustIsWhitespace (c : Char) : Bool :=
  let n := c.toNat
  n == 9 || n == 10 || n == 11 || n == 12 || n == 13 || n == 32 ||
  n == 133 || n == 160 || n == 5760 || (8192 ≤ n && n ≤ 8202) ||
  n == 8232 || n == 8233 || n == 8239 || n == 8287 || n == 12288

/-- Predicate trimmed by `ascii_string` and `ascii_string_trimmed`:
whitespace or NUL. -/
def trimPred (c : Char) : Bool :=
  rustIsWhitespace c || c == Char.ofNat 0

/-- Rust `str::trim_end_matches` with a character predicate: strip every
trailing character satisfying the predicate. -/
def trimEndMatches (p : Char → Bool) (s : List Char) : List Char :=
  (s.reverse.dropWhile p).reverse

/-- Rust `str::trim`: strip leading and trailing Unicode whitespace. -/
def rustTrim (s : List Char) : List Char :=
  trimEndMatches rustIsWhitespace (s.dropWhile rustIsWhitespace)

/-- Is the byte a UTF-8 continuation byte (0x80..=0xBF)? -/
def isUtf8Cont (b : Nat) : Bool := 128 ≤ b && b ≤ 191

/-- The Unicode replacement character U+FFFD. -/
def replacementChar : Char := Char.ofNat 0xFFFD

/-- Fueled worker for `String::from_utf8_lossy`.  Implements the RFC 3629
table together with the substitution-of-maximal-subparts policy of the Rust
standard library: an invalid sequence is replaced by a single U+FFFD per
maximal valid subpart.  The fuel is the length of the input, which bounds
the number of steps because every step consumes at least one byte. -/
def utf8LossyAux : Nat → List Nat → List Char
  | 0, _ => []
  | _ + 1, [] => []
  | fuel + 1, b :: rest =>
    if b < 128 then Char.ofNat b :: utf8LossyAux fuel rest
    else if 194 ≤ b && b ≤ 223 then
      match rest with
      | c1 :: rest1 =>
        if isUtf8Cont c1 then
          Char.ofNat ((b - 192) * 64 + (c1 - 128)) :: utf8LossyAux fuel rest1
        else replacementChar :: utf8LossyAux fuel rest
      | [] => [replacementChar]
    else if 224 ≤ b && b ≤ 239 then
      match rest with
      | c1 :: rest1 =>
        let c1ok :=
          if b == 224 then 160 ≤ c1 && c1 ≤ 191
          else if b == 237 then 128 ≤ c1 && c1 ≤ 159
          else isUtf8Cont c1
        if c1ok then
          match rest1 with
          | c2 :: rest2 =>
            if isUtf8Cont c2 then
              Char.ofNat ((b - 224) * 4096 + (c1 - 128) * 64 + (c2 - 128)) ::
                utf8LossyAux fuel rest2
            else replacementChar :: utf8LossyAux fuel rest1
          | [] => [replacementChar]
        else replacementChar :: utf8LossyAux fuel rest
      | [] => [replacementChar]
    else if 240 ≤ b && b ≤ 244 then
      match rest with
      | c1 :: rest1 =>
        let c1ok :=
          if b == 240 then 144 ≤ c1 && c1 ≤ 191
          else if b == 244 then 128 ≤ c1 && c1 ≤ 143
          else isUtf8Cont c1
        if c1ok then
          match rest1 with
          | c2 :: rest2 =>
            if isUtf8Cont c2 then
              match rest2 with
              | c3 :: rest3 =>
                if isUtf8Cont c3 then
                  Char.ofNat ((b - 240) * 262144 + (c1 - 128) * 4096 +
                      (c2 - 128) * 64 + (c3 - 128)) :: utf8LossyAux fuel rest3
                else replacementChar :: utf8LossyAux fuel rest2
              | [] => [replacementChar]
            else replacementChar :: utf8LossyAux fuel rest1
          | [] => [replacementChar]
        else replacementChar :: utf8LossyAux fuel rest
      | [] => [replacementChar]
    else replacementChar :: utf8LossyAux fuel rest

/-- Rust `String::from_utf8_lossy`. -/
def utf8Lossy (bytes : List Nat) : List Char :=
  utf8LossyAux bytes.length bytes

/-- Fueled worker for the strict `String::from_utf8`: `some` of the decoded
characters when the bytes are valid UTF-8, `none` otherwise. -/
def utf8StrictAux : Nat → List Nat → Option (List Char)
  | 0, _ => some []
  | _ + 1, [] => some []
  | fuel + 1, b :: rest =>
    if b < 128 then
      (utf8StrictAux fuel rest).map (Char.ofNat b :: ·)
    else if 194 ≤ b && b ≤ 223 then
      match rest with
      | c1 :: rest1 =>
        if isUtf8Cont c1 then
          (utf8StrictAux fuel rest1).map (Char.ofNat ((b - 192) * 64 + (c1 - 128)) :: ·)
        else none
      | [] => none
    else if 224 ≤ b && b ≤ 239 then
      match rest with
      | c1 :: c2 :: rest2 =>
        let c1ok :=
          if b == 224 then 160 ≤ c1 && c1 ≤ 191
          else if b == 237 then 128 ≤ c1 && c1 ≤ 159
          else isUtf8Cont c1
        if c1ok && isUtf8Cont c2 then
          (utf8StrictAux fuel rest2).map
            (Char.ofNat ((b - 224) * 4096 + (c1 - 128) * 64 + (c2 - 128)) :: ·)
        else none
      | _ => none
    else if 240 ≤ b && b ≤ 244 then
      match rest with
      | c1 :: c2 :: c3 :: rest3 =>
        let c1ok :=
          if b == 240 then 144 ≤ c1 && c1 ≤ 191
          else if b == 244 then 128 ≤ c1 && c1 ≤ 143
          else isUtf8Cont c1
        if c1ok && isUtf8Cont c2 && isUtf8Cont c3 then
          (utf8StrictAux fuel rest3).map
            (Char.ofNat ((b - 240) * 262144 + (c1 - 128) * 4096 +
                (c2 - 128) * 64 + (c3 - 128)) :: ·)
        else none
      | _ => none
    else none

/-- Rust `String::from_utf8` (strict). -/
def utf8Strict (bytes : List Nat) : Option (List Char) :=
  utf8StrictAux bytes.length bytes

/-- fn ascii_string: extract the slice at `offset` of `length` bytes,
decode it lossily and trim trailing whitespace/NUL; out-of-bounds requests
return the empty string. -/
def asciiString (data : List Nat) (offset length : Nat) : List Char :=
  if data.length ≤ offset || data.length < offset + length then []
  else trimEndMatches trimPred (utf8Lossy ((data.drop offset).take length))

/-- fn ascii_string_trimmed: lossy decode then trim trailing
whitespace/NUL. -/
def asciiStringTrimmed (data : List Nat) : List Char :=
  trimEndMatches trimPred (utf8Lossy data)

/-- u16::from_be_bytes on two bytes. -/
def u16be (hi lo : Nat) : Nat := hi * 256 + lo

/-- fn parse_name_string: decode one 140-byte descriptor record; `none`
exactly when the slice is shorter than 140 bytes. -/
def parseNameString (data : List Nat) : Option NameStringRecord :=
  if data.length < nameStringRecordLength then none
  else
    some { varType := u16be (data.getD 0 0) (data.getD 1 0)
           length := u16be (data.getD 4 0) (data.getD 5 0)
           position := u16be (data.getD 6 0) (data.getD 7 0)
           name := asciiString data 8 8
           label := asciiString data 16 40
           format := asciiString data 56 8 }

/-- Decimal digits of a natural number, as Rust renders integers. -/
def natToChars (n : Nat) : List Char := Nat.toDigits 10 n

/-- Zero-pad the fractional digits to width six (the fixed precision of
the `{:.6}` format). -/
def pad6 (n : Nat) : List Char :=
  List.replicate (6 - (natToChars n).length) '0' ++ natToChars n

/-- Round `num / den` to the nearest integer, ties to even — the rounding
performed by the Rust fixed-precision float formatter on the exact value. -/
def roundHalfEven (num den : Nat) : Nat :=
  let q := num / den
  let r := num % den
  if den < 2 * r then q + 1
  else if 2 * r < den then q
  else if q % 2 = 0 then q else q + 1

/-- The Rust cast `fraction as f64` for a fraction below 2^56: round to
the nearest value with a 53-bit significand, ties to even.  A value below
2^53 is exact; above, its binade determines the unit in the last place
(2, 4 or 8 for the three binades up to 2^56), and rounding to the nearest
multiple of that ulp with ties to an even significand is exactly the
IEEE round-to-nearest-even of the cast (a carry out of the top of a
binade lands on the first value of the next binade, which is also a
multiple of the ulp). -/
def roundFrac53 (f : Nat) : Nat :=
  if f < 2 ^ 53 then f
  else
    let ulp := if f < 2 ^ 54 then 2 else if f < 2 ^ 55 then 4 else 8
    roundHalfEven f ulp * ulp

/-- Shared tail of the numeric formatting in parse_numeric_value: given the
sign and the rounded value of `|value| * 10^6`, build `format!` output with
six fractional digits, strip trailing zeros then a trailing decimal point,
and fall back to "0" when nothing remains. -/
def assembleSix (neg : Bool) (n : Nat) : List Char :=
  let formatted :=
    (if neg then ['-'] else []) ++ natToChars (n / 1000000) ++ '.' :: pad6 (n % 1000000)
  let trimmed := trimEndMatches (fun c => c == '.') (trimEndMatches (fun c => c == '0') formatted)
  if trimmed.isEmpty then ['0'] else trimmed

/-- The 56-bit big-endian fraction accumulated from bytes 1..7
(`fraction = (fraction << 8) | byte`; for byte values the shift-or is
`acc * 256 + byte`). -/
def fractionOf (bytes : List Nat) : Nat :=
  bytes.foldl (fun acc b => acc * 256 + b) 0

/-- fn parse_numeric_value: decode an 8-byte IBM System/360 float cell to
its rendered string.  The source computes
`value = ± (fraction as f64 / 2^56) * 16.0.powi(e - 64)` and renders it
with `format!` at six fractional digits.  The cast `fraction as f64`
rounds the 56-bit fraction to 53 significand bits (roundFrac53); all the
remaining operations are exact power-of-two scalings inside the normal
f64 range, so `|value| * 10^6` is exactly the rational
`roundFrac53 fraction * 10^6 * 2^(4*e) / 2^312`, which the formatter
rounds half-to-even (the magnitude is bounded by 16^63, far below the
IEEE-double overflow threshold, so the `is_finite` branch of the source
never yields the missing value). -/
def parseNumericValue (data : List Nat) : List Char :=
  if data.length < 8 then []
  else
    let bytes := data.take 8
    if bytes.all (· == 0) then ['0']
    else
      let b0 := bytes.getD 0 0
      if b0 == 46 then []
      else
        let sign := b0.testBit 7
        let eRaw := b0 % 128
        let fraction := fractionOf (bytes.drop 1)
        if fraction == 0 then (if sign then ['-', '0'] else ['0'])
        else assembleSix sign
          (roundHalfEven (roundFrac53 fraction * 1000000 * 2 ^ (4 * eRaw)) (2 ^ 312))

/-- fn parse_cell: character cells are trimmed strings, numeric cells go
through the IBM float decode. -/
def parseCell (cellData : List Nat) (v : XPTVariable) : List Char :=
  match v.varType with
  | .Character => asciiStringTrimmed cellData
  | .Numeric => parseNumericValue cellData

/-- Effective ordering key of an enumerated descriptor record: the declared
position when positive, otherwise the original decode index plus one
(comparator of `ordered_records.sort_by`). -/
def effOrder (p : Nat × NameStringRecord) : Nat :=
  if p.2.position > 0 then p.2.position else p.1 + 1

/-- The total order realised by the sort_by comparator
`lhs_order.cmp(&rhs_order).then_with(|| lhs_idx.cmp(rhs_idx))`. -/
def recLE (a b : Nat × NameStringRecord) : Prop :=
  effOrder a < effOrder b ∨ (effOrder a = effOrder b ∧ a.1 ≤ b.1)

instance : DecidableRel recLE := fun a b => by
  unfold recLE; infer_instance

instance : IsTotal (Nat × NameStringRecord) recLE := by
  constructor
  intro a b
  unfold recLE
  rcases Nat.lt_trichotomy (effOrder a) (effOrder b) with h | h | h
  · exact Or.inl (Or.inl h)
  · rcases Nat.le_total a.1 b.1 with h2 | h2
    · exact Or.inl (Or.inr ⟨h, h2⟩)
    · exact Or.inr (Or.inr ⟨h.symm, h2⟩)
  · exact Or.inr (Or.inl h)

instance : IsTrans (Nat × NameStringRecord) recLE := by
  constructor
  intro a b c hab hbc
  unfold recLE at *
  rcases hab with h1 | ⟨h1, h1i⟩ <;> rcases hbc with h2 | ⟨h2, h2i⟩
  · exact Or.inl (Nat.lt_trans h1 h2)
  · exact Or.inl (h2 ▸ h1)
  · exact Or.inl (h1 ▸ h2)
  · exact Or.inr ⟨h1.trans h2, Nat.le_trans h1i h2i⟩

/-- The variable-ordering stage: enumerate the parsed records and sort them
by the comparator.  The Rust `Vec::sort_by` is a stable sort; the
comparator breaks every tie by the original index, which `enum` makes
distinct, so the comparator is a total antisymmetric order and the sorted
permutation is unique — insertion sort computes the same list. -/
def sortRecords (records : List NameStringRecord) : List (Nat × NameStringRecord) :=
  List.insertionSort recLE records.enum

/-- The normalization stage (the `.map` building `variables`): synthesize
blank names as VAR&lt;n&gt;, default blank labels to the name, map type code 1
to Numeric, and clamp lengths to the type minimum (8 / 1). -/
def normalizeVariables (ordered : List (Nat × NameStringRecord)) : List XPTVariable :=
  ordered.enum.map (fun p =>
    let index := p.1
    let record := p.2.2
    let baseName :=
      if record.name.isEmpty then 'V' :: 'A' :: 'R' :: natToChars (index + 1)
      else record.name
    let label := if record.label.isEmpty then baseName else record.label
    let varType : VariableType := if record.varType = 1 then .Numeric else .Character
    let length :=
      if varType = VariableType.Numeric then max record.length 8
      else max record.length 1
    { name := baseName, label := label, varType := varType, length := length })

/-- The descriptor-record collection loop of `XPTParser::parse`: slice the
block into 140-byte records and keep those `parse_name_string` accepts. -/
def collectNameRecords (block : List Nat) (recordCount : Nat) : List NameStringRecord :=
  (List.range recordCount).filterMap (fun i =>
    if (i + 1) * nameStringRecordLength ≤ block.length then
      parseNameString ((block.drop (i * nameStringRecordLength)).take nameStringRecordLength)
    else none)

/-- The two row-width candidates: the storage width and the storage width
rounded up to the next multiple of 8.  The source computes the second as
`((storage_width as f64 / 8.0).ceil() as usize) * 8`, which equals the
integer ceiling division for every width representable without f64
rounding (widths here are far below 2^53). -/
def rowWidthCandidates (sw : Nat) : List Nat :=
  [sw, ((sw + 7) / 8) * 8]

/-- Fill-byte test of the row-layout resolver: NUL or ASCII space. -/
def isFillByte (b : Nat) : Bool := b == 0 || b == 32

/-- One iteration of the candidate loop: accept an exact multiple as is,
accept a candidate whose tail remainder is all filler after truncating the
filler, reject otherwise. -/
def tryCandidate (raw : List Nat) (candidate : Nat) : Option (Nat × List Nat) :=
  let remainder := raw.length % candidate
  if remainder = 0 then some (candidate, raw)
  else
    let fillerStart := raw.length - remainder
    if (raw.drop fillerStart).all isFillByte then some (candidate, raw.take fillerStart)
    else none

/-- The row-layout resolver of `XPTParser::parse`: the first accepted
candidate, with the (possibly truncated) observation bytes. -/
def resolveRowWidth (raw : List Nat) (sw : Nat) : Option (Nat × List Nat) :=
  (rowWidthCandidates sw).findSome? (tryCandidate raw)

/-- The per-row cell loop of `XPTParser::parse`: walk the variables,
stopping (`break`) as soon as a slice would run past the row data. -/
def decodeCells (rowData : List Nat) : List XPTVariable → Nat → List (List Char)
  | [], _ => []
  | v :: rest, offset =>
    if rowData.length < offset + v.length then []
    else parseCell ((rowData.drop offset).take v.length) v :: decodeCells rowData rest (offset + v.length)

/-- The observation loop of `XPTParser::parse` (rows `idx` to
`idx + fuel - 1`): stop at a row whose storage bytes run past the
observation range, decode the cells of each remaining row, and keep the row
only when every cell was decoded. -/
def buildRowsAux (obs : List Nat) (vars : List XPTVariable) (sw w : Nat) :
    Nat → Nat → List XPTRow
  | 0, _ => []
  | fuel + 1, idx =>
    if obs.length < idx * w + sw then []
    else
      let rowData := (obs.drop (idx * w)).take sw
      let vals := decodeCells rowData vars 0
      (if vals.length = vars.length then [⟨vals⟩] else []) ++
        buildRowsAux obs vars sw w fuel (idx + 1)

/-- All decoded rows: the loop above over `observation_count` rows. -/
def buildRows (obs : List Nat) (vars : List XPTVariable) (sw w count : Nat) : List XPTRow :=
  buildRowsAux obs vars sw w count 0

/-- Rust `str::split` with a character predicate: split into pieces at
every separator, keeping empty pieces. -/
def splitOnSep (p : Char → Bool) : List Char → List (List Char)
  | [] => [[]]
  | c :: rest =>
    if p c then [] :: splitOnSep p rest
    else
      match splitOnSep p rest with
      | piece :: pieces => (c :: piece) :: pieces
      | [] => [[c]]

/-- Model of `std::path::Path::file_stem` composed with `to_str` for the
Unix paths the host passes (code outside the decoder; semantics of the Rust
standard library): the final non-empty, non-"." component of the path, with
the extension after the last dot removed unless that dot is the leading
character; `none` for an empty path or a ".." file name. -/
def fileStem (path : List Char) : Option (List Char) :=
  let comps := (splitOnSep (fun c => c == '/') path).filter
    (fun c => !c.isEmpty && c ≠ ['.'])
  match comps.getLast? with
  | none => none
  | some fname =>
    if fname = ['.', '.'] then none
    else
      let afterDot := fname.reverse.takeWhile (fun c => c ≠ '.')
      if afterDot.length = fname.length then some fname
      else if fname.length - afterDot.length - 1 = 0 then some fname
      else some (fname.take (fname.length - afterDot.length - 1))

/-- The fallback chain of infer_dataset_title when the MEMBER NAME marker
is absent or unusable: stem of the filename hint, else the fixed default
title. -/
def fallbackTitle (fallback : Option (List Char)) : List Char :=
  match fallback with
  | some fb =>
    match fileStem fb with
    | some stem => stem
    | none => "XPT Dataset".toList
  | none => "XPT Dataset".toList

/-- fn infer_dataset_title: first non-empty token after the MEMBER NAME
marker (up to 80 bytes, strict UTF-8, split on spaces and NULs, trimmed);
on any failure fall back to the filename stem or the default title. -/
def inferDatasetTitle (data : List Nat) (fallback : Option (List Char)) : List Char :=
  match findBytes data memberNameMarker with
  | some pos =>
    let start := pos + memberNameMarker.length
    let limit := min (start + 80) data.length
    match utf8Strict ((data.drop start).take (limit - start)) with
    | some text =>
      match ((splitOnSep (fun c => c == ' ' || c == Char.ofNat 0) text).filter
          (fun s => !s.isEmpty)).head? with
      | some name => rustTrim name
      | none => fallbackTitle fallback
    | none => fallbackTitle fallback
  | none => fallbackTitle fallback

/-- fn infer_date: trimmed text of the up-to-32 bytes after the marker,
when present, valid UTF-8 and non-blank. -/
def inferDate (data : List Nat) (marker : List Nat) : Option (List Char) :=
  match findBytes data marker with
  | none => none
  | some pos =>
    let start := pos + marker.length
    let limit := min (start + 32) data.length
    match utf8Strict ((data.drop start).take (limit - start)) with
    | some text =>
      let trimmed := rustTrim text
      if trimmed.isEmpty then none else some trimmed
    | none => none

/-- The header-locating, descriptor-parsing, ordering and normalizing
stages of `XPTParser::parse`, up to and including the computation of the
aligned observation start.  Returns the final variable list and the
observation start offset.  (When the aligned start exceeds the buffer
length, the Rust slice `&data[obs_data_start..]` panics; our `List.drop`
yields the empty region there — those inputs are outside every claim.) -/
def varStage (data : List Nat) : Except XPTError (List XPTVariable × Nat) :=
  if data.length < recordSize then .error .TooSmall
  else
    match findBytes data namestrHeader with
    | none => .error .NamestrHeaderNotFound
    | some namestrPos =>
      match findBytes data obsHeader with
      | none => .error .ObsHeaderNotFound
      | some obsPos =>
        let blockStart := alignToRecordBoundary (namestrPos + namestrHeader.length)
        if obsPos ≤ blockStart then .error .InvalidHeaderPositions
        else
          let block := (data.drop blockStart).take (obsPos - blockStart)
          if block.length < nameStringRecordLength then .error .NameStringBlockTooSmall
          else
            let recordCount := block.length / nameStringRecordLength
            if recordCount = 0 then .error .NoVariableMetadata
            else
              let nameRecords := collectNameRecords block recordCount
              if nameRecords.isEmpty then .error .DescriptorParseFailure
              else
                .ok (normalizeVariables (sortRecords nameRecords),
                  alignToRecordBoundary (obsPos + obsHeader.length))

/-- fn XPTParser::parse: the full decoder.  Metadata inference (title and
dates) is pure and independent of the other stages; the source runs it
between descriptor parsing and ordering, we attach it to the final
dataset. -/
def parse (data : List Nat) (suggestedFilename : Option (List Char)) :
    Except XPTError XPTDataset :=
  match varStage data with
  | .error e => .error e
  | .ok (vars, obsStart) =>
    let raw := data.drop obsStart
    let storageWidth := (vars.map (·.length)).sum
    if storageWidth = 0 then .error .ZeroStorageWidth
    else
      match resolveRowWidth raw storageWidth with
      | none => .error .UnresolvableRowWidth
      | some (rowWidth, obs) =>
        if obs.length < rowWidth then .error .ObservationTooSmall
        else
          .ok { title := inferDatasetTitle data suggestedFilename
                createdDate := inferDate data dateCreatedMarker
                modifiedDate := inferDate data dateModifiedMarker
                vars := vars
                rows := buildRows obs vars storageWidth rowWidth
                  (obs.length / rowWidth) }

/-! ## Row-layout resolver: specification-side definitions (for C1 / C4)

The following definitions transcribe the wording of the specification
(§4.4): a candidate is accepted when the observation range length is an
exact multiple, or when the tail remainder consists entirely of fill
bytes (0x00 or 0x20); acceptance truncates the trailing filler. -/

/-- Spec §4.4 acceptance test for one stride candidate. -/
def specAccepts (region : List Nat) (c : Nat) : Bool :=
  region.length % c == 0 ||
    (region.drop (region.length - region.length % c)).all isFillByte

/-- Spec §4.4: the observation range truncated to exclude the trailing
filler of an accepted candidate. -/
def specTruncate (region : List Nat) (c : Nat) : List Nat :=
  region.take (region.length - region.length % c)

/-- Spec §4.4 resolver: try the storage width, then the storage width
rounded up to the next multiple of 8, and accept the first candidate that
passes; fail when neither does. -/
def specResolve (region : List Nat) (sw : Nat) : Option (Nat × List Nat) :=
  if specAccepts region sw then some (sw, specTruncate region sw)
  else if specAccepts region (((sw + 7) / 8) * 8) then
    some (((sw + 7) / 8) * 8, specTruncate region (((sw + 7) / 8) * 8))
  else none

lemma tryCandidate_eq_spec (region : List Nat) (c : Nat) :
    tryCandidate region c =
      if specAccepts region c then some (c, specTruncate region c) else none := by
  unfold tryCandidate specAccepts specTruncate
  by_cases h : region.length % c = 0
  · simp [h, List.take_length]
  · by_cases hfill :
        ((region.drop (region.length - region.length % c)).all isFillByte) = true
    · simp [h, hfill]
    · simp [h, hfill]

lemma resolveRowWidth_eq_spec (region : List Nat) (sw : Nat) :
    resolveRowWidth region sw = specResolve region sw := by
  unfold resolveRowWidth rowWidthCandidates specResolve
  simp only [List.findSome?_cons, List.findSome?_nil, tryCandidate_eq_spec]
  by_cases h1 : specAccepts region sw
  · simp [h1]
  · simp only [h1, if_false, Bool.false_eq_true]
    by_cases h2 : specAccepts region (((sw + 7) / 8) * 8)
    · simp [h2]
    · simp [h2]

lemma specTruncate_length (region : List Nat) (c : Nat) :
    (specTruncate region c).length = region.length - region.length % c := by
  simp [specTruncate]

lemma resolveRowWidth_bounds {raw : List Nat} {sw w : Nat} {obs : List Nat}
    (hsw : 0 < sw) (h : resolveRowWidth raw sw = some (w, obs)) :
    (w = sw ∨ w = ((sw + 7) / 8) * 8) ∧ sw ≤ w ∧ 0 < w ∧ obs.length % w = 0 ∧
      obs.length = raw.length - raw.length % w := by
  rw [resolveRowWidth_eq_spec] at h
  unfold specResolve at h
  have hmod : ∀ c : Nat, (raw.length - raw.length % c) % c = 0 := by
    intro c
    have hd := Nat.div_add_mod raw.length c
    have hsub : raw.length - raw.length % c = c * (raw.length / c) := by omega
    rw [hsub, Nat.mul_mod_right]
  have hround : sw ≤ ((sw + 7) / 8) * 8 := by omega
  by_cases h1 : specAccepts raw sw = true
  · rw [if_pos h1] at h
    obtain ⟨rfl, rfl⟩ : sw = w ∧ specTruncate raw sw = obs := by
      simpa using h
    refine ⟨Or.inl rfl, le_refl _, hsw, ?_, ?_⟩
    · rw [specTruncate_length]; exact hmod _
    · exact specTruncate_length _ _
  · rw [if_neg h1] at h
    by_cases h2 : specAccepts raw (((sw + 7) / 8) * 8) = true
    · rw [if_pos h2] at h
      obtain ⟨rfl, rfl⟩ : ((sw + 7) / 8) * 8 = w ∧ specTruncate raw (((sw + 7) / 8) * 8) = obs := by
        simpa using h
      refine ⟨Or.inr rfl, hround, lt_of_lt_of_le hsw hround, ?_, ?_⟩
      · rw [specTruncate_length]; exact hmod _
      · exact specTruncate_length _ _
    · rw [if_neg h2] at h
      exact absurd h (by simp)

lemma parse_unresolvable {data : List Nat} {fname : Option (List Char)}
    {vars : List XPTVariable} {obsStart : Nat}
    (h : varStage data = .ok (vars, obsStart))
    (hsw : (vars.map (·.length)).sum ≠ 0)
    (hres : resolveRowWidth (data.drop obsStart) ((vars.map (·.length)).sum) = none) :
    parse data fname = .error .UnresolvableRowWidth := by
  unfold parse
  rw [h]
  simp [hsw, hres]

/-- One 16-byte block of the C1 observation region: 10 data bytes then 6
ASCII spaces. -/
def block16 : List Nat := List.replicate 10 65 ++ List.replicate 6 32

/-- The 64-byte observation region of C1: four such blocks. -/
def region64 : List Nat := block16 ++ block16 ++ block16 ++ block16

/-- C1 counterexample: for the 64-byte observation region whose every
16-byte block ends in 6 ASCII spaces and storage width 10, the row-layout
resolver accepts the first candidate 10 (truncating the 4 trailing filler
bytes) — it does not resolve the stride to 16 as the claim states, because
the tail remainder of candidate 10 already consists of spaces. -/
theorem c1_counterexample :
    resolveRowWidth region64 10 = some (10, region64.take 60) ∧
    (resolveRowWidth region64 10).map Prod.fst ≠ some 16 := by
  constructor <;> decide

/-- C1 amended: for any input whose variable lengths sum to
storage width 10 and whose aligned observation region is 64 bytes long
with the last 6 bytes of every 16-byte block being ASCII spaces, the
row-layout resolver resolves the stride to 10 (the storage-width
candidate, accepted by the trailing-filler rule, truncating the last 4
bytes), not to 16. -/
theorem c1_amended (region : List Nat) (h64 : region.length = 64)
    (hsp : ∀ i, i < 64 → 10 ≤ i % 16 → region.getD i 0 = 32) :
    resolveRowWidth region 10 = some (10, region.take 60) := by
  rw [resolveRowWidth_eq_spec]
  have hall : (region.drop 60).all isFillByte = true := by
    rw [List.all_eq_true]
    intro x hx
    obtain ⟨i, hi, hget⟩ := List.mem_iff_getElem.mp hx
    have hlen : (region.drop 60).length = 4 := by simp [h64]
    rw [hlen] at hi
    have hgd : region.getD (60 + i) 0 = 32 := hsp (60 + i) (by omega) (by omega)
    have hge : (region.drop 60)[i] = region.getD (60 + i) 0 := by
      rw [List.getElem_drop]
      exact (List.getD_eq_getElem region 0 (by omega)).symm
    rw [← hget, hge, hgd]
    decide
  have hacc : specAccepts region 10 = true := by
    unfold specAccepts
    rw [h64]
    simpa using hall
  unfold specResolve
  rw [if_pos hacc]
  unfold specTruncate
  rw [h64]

/-- C1 witness: the concrete region satisfies the hypotheses of the
amended claim. -/
theorem c1_witness :
    region64.length = 64 ∧ resolveRowWidth region64 10 = some (10, region64.take 60) :=
  ⟨by decide, c1_amended region64 (by decide) (by decide)⟩

/-- C4: the row-layout resolver agrees with the contract of §4.4 — the
two candidates (storage width, then its round-up to a multiple of 8) are
tried in order with the exact-multiple-or-clean-filler acceptance test
and trailing-filler truncation; when neither candidate is accepted the
whole decode fails with the UnresolvableRowWidth error; an accepted
candidate is one of the two and leaves exactly the truncated length of
observation bytes, of which the parser takes length / stride rows. -/
theorem c4_resolver :
    (∀ region sw, 0 < sw → resolveRowWidth region sw = specResolve region sw) ∧
    (∀ region sw, 0 < sw → resolveRowWidth region sw = none →
      specAccepts region sw = false ∧ specAccepts region (((sw + 7) / 8) * 8) = false) ∧
    (∀ data fname vars obsStart, varStage data = Except.ok (vars, obsStart) →
      (vars.map (·.length)).sum ≠ 0 →
      resolveRowWidth (data.drop obsStart) ((vars.map (·.length)).sum) = none →
      parse data fname = Except.error XPTError.UnresolvableRowWidth) ∧
    (∀ region sw w obs, 0 < sw → resolveRowWidth region sw = some (w, obs) →
      (w = sw ∨ w = ((sw + 7) / 8) * 8) ∧
      obs.length = region.length - region.length % w) := by
  refine ⟨fun region sw _ => resolveRowWidth_eq_spec region sw, ?_, ?_, ?_⟩
  · intro region sw _ hnone
    rw [resolveRowWidth_eq_spec] at hnone
    unfold specResolve at hnone
    by_cases h1 : specAccepts region sw = true
    · rw [if_pos h1] at hnone; exact absurd hnone (by simp)
    · by_cases h2 : specAccepts region (((sw + 7) / 8) * 8) = true
      · rw [if_neg h1, if_pos h2] at hnone; exact absurd hnone (by simp)
      · exact ⟨Bool.eq_false_iff.mpr h1, Bool.eq_false_iff.mpr h2⟩
  · intro data fname vars obsStart h hsw hres
    exact parse_unresolvable h hsw hres
  · intro region sw w obs hsw h
    obtain ⟨h1, _, _, _, h5⟩ := resolveRowWidth_bounds hsw h
    exact ⟨h1, h5⟩

/-- C4 witness: the resolver and the specification resolver agree on a
concrete region and storage width. -/
theorem c4_witness : resolveRowWidth region64 10 = specResolve region64 10 :=
  c4_resolver.1 region64 10 (by decide)

/-- C5: the variable-ordering stage is a stable sort of the enumerated
descriptor records by effective position.  The output is a permutation of
the enumerated records, it is sorted with respect to the comparator
(effective position, then original index), and any two entries with
identical declared positions appear in ascending original-index order —
i.e. they keep their original relative order. -/
theorem c5_stable_sort (records : List NameStringRecord) :
    (sortRecords records).Perm records.enum ∧
    (sortRecords records).Pairwise recLE ∧
    (sortRecords records).Pairwise
      (fun a b => a.2.position = b.2.position → a.1 ≤ b.1) := by
  refine ⟨List.perm_insertionSort recLE records.enum, ?_, ?_⟩
  · exact List.sorted_insertionSort recLE records.enum
  · refine (List.sorted_insertionSort recLE records.enum).imp ?_
    intro a b hab hpos
    rcases hab with h | ⟨_, h⟩
    · unfold effOrder at h
      rw [hpos] at h
      by_cases hp : b.2.position > 0
      · rw [if_pos hp, if_pos hp] at h
        exact absurd h (lt_irrefl _)
      · rw [if_neg hp, if_neg hp] at h
        omega
    · exact h

/-! ## Numeric cell decode: specification-side definitions (for C2 / C3)

The specification describes the decoded value of a non-missing numeric
cell as the real number `sign * (fraction / 2^56) * 16^(e - 64)`.  We
transcribe that value into `ℚ` and relate the renderer of
`parseNumericValue` to renderings of this rational. -/

/-- Spec value of a fraction/exponent pair: `(fraction / 2^56) * 16^(e-64)`. -/
def specFracExp (fraction e : Nat) : ℚ :=
  (fraction : ℚ) / 2 ^ 56 * 16 ^ ((e : ℤ) - 64)

/-- Spec value of a full cell: the sign is bit 7 of byte 0, the exponent
bits 0-6 of byte 0, the fraction the big-endian concatenation of the
remaining bytes. -/
def specNumValue (b0 : Nat) (fracBytes : List Nat) : ℚ :=
  (if b0.testBit 7 then -1 else 1) * specFracExp (fractionOf fracBytes) (b0 % 128)

/-- The value the program actually decodes: the cast `fraction as f64`
first rounds the 56-bit fraction to 53 significand bits (ties to even),
and the rest of the pipeline is exact, so the decoded double is exactly
the value of the ROUNDED fraction under the specification formula. -/
def specNumValueF64 (b0 : Nat) (fracBytes : List Nat) : ℚ :=
  (if b0.testBit 7 then -1 else 1) *
    specFracExp (roundFrac53 (fractionOf fracBytes)) (b0 % 128)

/-- Round a rational to the nearest integer, ties to even. -/
def roundHalfEvenQ (x : ℚ) : ℤ :=
  let n := ⌊x⌋
  if 1 < 2 * (x - n) then n + 1
  else if 2 * (x - n) < 1 then n
  else if n % 2 = 0 then n else n + 1

/-- Rendering of a decoded value per the Rust `format!` with six
fractional digits: round `|value| * 10^6` to the nearest integer (ties to
even), print with six fractional digits and the sign, then strip trailing
zeros and a trailing decimal point. -/
def ibmRender (q : ℚ) : List Char :=
  assembleSix (decide (q < 0)) (roundHalfEvenQ (|q| * 10 ^ 6)).toNat

/-- Rendering of a decoded value per the claim wording of C3: the decimal
rendering TRUNCATED to six fractional digits (the floor of
`|value| * 10^6`), trailing zeros and point stripped. -/
def specTruncRender (q : ℚ) : List Char :=
  assembleSix (decide (q < 0)) (⌊|q| * 10 ^ 6⌋).toNat

lemma floorQ_natDiv (N D : Nat) : ⌊(N : ℚ) / (D : ℚ)⌋ = ((N / D : Nat) : ℤ) := by
  rw [← Int.natCast_floor_eq_floor (by positivity), Nat.floor_div_eq_div]

lemma sub_floor_div (N D : Nat) (hD : 0 < D) :
    (N : ℚ) / D - ((N / D : Nat) : ℚ) = ((N % D : Nat) : ℚ) / D := by
  have h : (D : ℚ) * ((N / D : Nat) : ℚ) + ((N % D : Nat) : ℚ) = (N : ℚ) := by
    exact_mod_cast Nat.div_add_mod N D
  have hD' : (0 : ℚ) < D := by exact_mod_cast hD
  field_simp
  linarith [h]

lemma roundHEQ_natDiv (N D : Nat) (hD : 0 < D) :
    roundHalfEvenQ ((N : ℚ) / D) = (roundHalfEven N D : ℤ) := by
  have hD' : (0 : ℚ) < D := by exact_mod_cast hD
  unfold roundHalfEvenQ roundHalfEven
  rw [floorQ_natDiv]
  dsimp only
  have hfr : (N : ℚ) / D - ((((N / D : Nat) : ℤ)) : ℚ) = ((N % D : Nat) : ℚ) / D := by
    have hcast : ((((N / D : Nat) : ℤ)) : ℚ) = ((N / D : Nat) : ℚ) := by norm_cast
    rw [hcast]
    exact sub_floor_div N D hD
  rw [hfr]
  have hc1 : (1 < 2 * (((N % D : Nat) : ℚ) / D)) ↔ (D < 2 * (N % D)) := by
    rw [← mul_div_assoc, lt_div_iff₀ hD', one_mul]
    exact_mod_cast Iff.rfl
  have hc2 : (2 * (((N % D : Nat) : ℚ) / D) < 1) ↔ (2 * (N % D) < D) := by
    rw [← mul_div_assoc, div_lt_iff₀ hD', one_mul]
    exact_mod_cast Iff.rfl
  have hpar : (((N / D : Nat) : ℤ) % 2 = 0) ↔ ((N / D) % 2 = 0) := by omega
  simp only [hc1, hc2, hpar]
  split_ifs <;> push_cast <;> ring

lemma specFracExp_nonneg (f e : Nat) : 0 ≤ specFracExp f e := by
  unfold specFracExp
  positivity

lemma specFracExp_pos (f e : Nat) (hf : f ≠ 0) : 0 < specFracExp f e := by
  unfold specFracExp
  have hf' : (0 : ℚ) < f := by exact_mod_cast Nat.pos_of_ne_zero hf
  positivity

lemma specFracExp_scale (f e : Nat) :
    specFracExp f e * 10 ^ 6 =
      ((f * 1000000 * 2 ^ (4 * e) : Nat) : ℚ) / ((2 ^ 312 : Nat) : ℚ) := by
  unfold specFracExp
  have h16 : (16 : ℚ) ^ ((e : ℤ) - 64) = 2 ^ (4 * e) / 2 ^ 256 := by
    rw [zpow_sub₀ (by norm_num : (16 : ℚ) ≠ 0), zpow_natCast]
    have h1 : (16 : ℚ) ^ e = 2 ^ (4 * e) := by
      rw [show (16 : ℚ) = 2 ^ 4 by norm_num, ← pow_mul]
    have h2 : (16 : ℚ) ^ (64 : ℤ) = 2 ^ 256 := by
      norm_num
    rw [h1, h2]
  rw [h16]
  push_cast
  have h2 : (2 : ℚ) ^ 56 ≠ 0 := by positivity
  have h3 : (2 : ℚ) ^ 256 ≠ 0 := by positivity
  have h4 : (2 : ℚ) ^ 312 ≠ 0 := by positivity
  field_simp
  ring

lemma sign_abs_eq {sign : Bool} {x : ℚ} (hx : 0 ≤ x) :
    |(if sign then (-1 : ℚ) else 1) * x| = x := by
  cases sign <;> simp [abs_of_nonneg hx]

lemma sign_neg_iff {sign : Bool} {x : ℚ} (hx : 0 < x) :
    decide ((if sign then (-1 : ℚ) else 1) * x < 0) = sign := by
  cases sign <;> simp [hx, le_of_lt hx]

/-- Core bridging lemma: the integer-scaled rounding performed by
`parseNumericValue` renders exactly the claimed rational value. -/
lemma render_eq (sign : Bool) (f e : Nat) (hf : f ≠ 0) :
    assembleSix sign (roundHalfEven (f * 1000000 * 2 ^ (4 * e)) (2 ^ 312)) =
      ibmRender ((if sign then -1 else 1) * specFracExp f e) := by
  have hpos : 0 < specFracExp f e := specFracExp_pos f e hf
  unfold ibmRender
  rw [sign_neg_iff hpos, sign_abs_eq (le_of_lt hpos), specFracExp_scale,
    roundHEQ_natDiv _ _ (by positivity), Int.toNat_natCast]

/-- Unfolding of parseNumericValue on an explicit 8-byte cell. -/
lemma parseNumericValue_cons (b0 b1 b2 b3 b4 b5 b6 b7 : Nat) (rest : List Nat) :
    parseNumericValue (b0::b1::b2::b3::b4::b5::b6::b7::rest) =
      if b0 = 0 ∧ b1 = 0 ∧ b2 = 0 ∧ b3 = 0 ∧ b4 = 0 ∧ b5 = 0 ∧ b6 = 0 ∧ b7 = 0 then ['0']
      else if b0 = 46 then []
      else if fractionOf [b1,b2,b3,b4,b5,b6,b7] = 0 then
        (if b0.testBit 7 then ['-','0'] else ['0'])
      else assembleSix (b0.testBit 7)
        (roundHalfEven
          (roundFrac53 (fractionOf [b1,b2,b3,b4,b5,b6,b7]) * 1000000 * 2 ^ (4 * (b0 % 128)))
          (2 ^ 312)) := by
  have hlen : ¬ ((b0::b1::b2::b3::b4::b5::b6::b7::rest).length < 8) := by
    simp [List.length_cons]
  unfold parseNumericValue
  rw [if_neg hlen]
  have htake : (b0::b1::b2::b3::b4::b5::b6::b7::rest).take 8 = [b0,b1,b2,b3,b4,b5,b6,b7] := rfl
  rw [htake]
  simp only [List.all_cons, List.all_nil, Bool.and_eq_true, beq_iff_eq, and_true,
    List.getD_cons_zero, List.drop_succ_cons, List.drop_zero]

lemma fractionOf_foldl_eq_zero : ∀ (l : List Nat) (acc : Nat),
    l.foldl (fun a b => a * 256 + b) acc = 0 ↔ acc = 0 ∧ ∀ b ∈ l, b = 0 := by
  intro l
  induction l with
  | nil => intro acc; simp
  | cons b l ih =>
    intro acc
    rw [List.foldl_cons, ih]
    constructor
    · rintro ⟨h1, h2⟩
      exact ⟨by omega, fun x hx => by rcases List.mem_cons.mp hx with rfl | hx; omega; exact h2 x hx⟩
    · rintro ⟨h1, h2⟩
      refine ⟨?_, fun x hx => h2 x (List.mem_cons_of_mem _ hx)⟩
      have := h2 b (List.mem_cons_self _ _)
      omega

lemma fractionOf_eq_zero (l : List Nat) : fractionOf l = 0 ↔ ∀ b ∈ l, b = 0 := by
  unfold fractionOf
  rw [fractionOf_foldl_eq_zero]
  simp

lemma fractionOf_foldl_lt : ∀ (l : List Nat) (acc : Nat), (∀ b ∈ l, b < 256) →
    l.foldl (fun a b => a * 256 + b) acc < (acc + 1) * 256 ^ l.length := by
  intro l
  induction l with
  | nil => intro acc _; simp
  | cons b l ih =>
    intro acc hb
    rw [List.foldl_cons]
    have h1 := ih (acc * 256 + b) (fun x hx => hb x (List.mem_cons_of_mem _ hx))
    have h2 : b < 256 := hb b (List.mem_cons_self _ _)
    calc l.foldl (fun a b => a * 256 + b) (acc * 256 + b)
        < (acc * 256 + b + 1) * 256 ^ l.length := h1
      _ ≤ ((acc + 1) * 256) * 256 ^ l.length := by
          apply Nat.mul_le_mul_right
          omega
      _ = (acc + 1) * 256 ^ (b :: l).length := by
          rw [List.length_cons, pow_succ]
          ring

lemma fractionOf_lt_7 (l : List Nat) (h7 : l.length = 7) (hb : ∀ b ∈ l, b < 256) :
    fractionOf l < 2 ^ 56 := by
  have := fractionOf_foldl_lt l 0 hb
  rw [h7] at this
  unfold fractionOf
  calc l.foldl (fun a b => a * 256 + b) 0 < (0 + 1) * 256 ^ 7 := this
    _ = 2 ^ 56 := by norm_num

/-- An encoding whose fraction and exponent give the exact value 1 must
have an exponent above the bias and a power-of-two fraction. -/
lemma specFracExp_eq_one_nat {f e : Nat} (hf56 : f < 2 ^ 56)
    (h1 : specFracExp f e = 1) : 64 < e ∧ f ≠ 0 ∧ f * 2 ^ (4 * e) = 2 ^ 312 := by
  have hf0 : f ≠ 0 := by
    rintro rfl
    unfold specFracExp at h1
    simp at h1
  have hflt : (f : ℚ) / 2 ^ 56 < 1 := by
    rw [div_lt_one (by positivity)]
    exact_mod_cast hf56
  have he : 64 < e := by
    by_contra hle
    push_neg at hle
    have hz : (16 : ℚ) ^ ((e : ℤ) - 64) ≤ 1 :=
      zpow_le_one_of_nonpos₀ (by norm_num) (by omega)
    have hlt1 : specFracExp f e < 1 := by
      unfold specFracExp
      calc (f : ℚ) / 2 ^ 56 * 16 ^ ((e : ℤ) - 64)
          ≤ (f : ℚ) / 2 ^ 56 * 1 := by
            apply mul_le_mul_of_nonneg_left hz (by positivity)
        _ < 1 := by rw [mul_one]; exact hflt
    rw [h1] at hlt1
    exact absurd hlt1 (lt_irrefl _)
  refine ⟨he, hf0, ?_⟩
  obtain ⟨k, rfl⟩ : ∃ k, e = 64 + (k + 1) := ⟨e - 65, by omega⟩
  unfold specFracExp at h1
  have hcast : ((64 + (k + 1) : Nat) : ℤ) - 64 = ((k + 1 : Nat) : ℤ) := by push_cast; ring
  rw [hcast, zpow_natCast] at h1
  have h2 : (f : ℚ) * 16 ^ (k + 1) = 2 ^ 56 := by
    field_simp at h1
    linarith [h1]
  have h3 : f * 16 ^ (k + 1) = 2 ^ 56 := by exact_mod_cast h2
  have h4 : (16 : Nat) ^ (k + 1) = 2 ^ (4 * (k + 1)) := by
    rw [show (16 : Nat) = 2 ^ 4 by norm_num, ← pow_mul]
  rw [h4] at h3
  calc f * 2 ^ (4 * (64 + (k + 1)))
      = f * 2 ^ (4 * (k + 1)) * 2 ^ 256 := by
        rw [mul_assoc, ← pow_add]
        congr 2
        ring
    _ = 2 ^ 56 * 2 ^ 256 := by rw [h3]
    _ = 2 ^ 312 := by norm_num [← pow_add]

lemma roundHalfEven_mul_self (a D : Nat) (hD : 0 < D) : roundHalfEven (a * D) D = a := by
  unfold roundHalfEven
  rw [Nat.mul_div_cancel _ hD, Nat.mul_mod_left]
  simp [hD]

lemma abs_specNumValueF64 (b0 : Nat) (L : List Nat) :
    |specNumValueF64 b0 L| = specFracExp (roundFrac53 (fractionOf L)) (b0 % 128) := by
  unfold specNumValueF64
  cases h : b0.testBit 7 <;>
    simp [abs_of_nonneg (specFracExp_nonneg (roundFrac53 (fractionOf L)) (b0 % 128))]

lemma specFracExp_le_bound (f e : Nat) (hf : f ≤ 2 ^ 56) (he : e < 128) :
    specFracExp f e ≤ 16 ^ 63 := by
  unfold specFracExp
  have hfle : (f : ℚ) / 2 ^ 56 ≤ 1 := by
    rw [div_le_one (by positivity)]
    exact_mod_cast hf
  have h2 : (16 : ℚ) ^ ((e : ℤ) - 64) ≤ 16 ^ (63 : ℤ) :=
    zpow_le_zpow_right₀ (by norm_num) (by omega)
  have h3 : (0 : ℚ) ≤ 16 ^ ((e : ℤ) - 64) := by positivity
  calc (f : ℚ) / 2 ^ 56 * 16 ^ ((e : ℤ) - 64)
      ≤ 1 * 16 ^ (63 : ℤ) := mul_le_mul hfle h2 h3 (by norm_num)
    _ = 16 ^ (63 : Nat) := by
        rw [one_mul, show (63 : ℤ) = ((63 : Nat) : ℤ) by norm_num, zpow_natCast]

lemma notAllZero_of_fraction {b0 b1 b2 b3 b4 b5 b6 b7 : Nat}
    (hf : fractionOf [b1,b2,b3,b4,b5,b6,b7] ≠ 0) :
    ¬(b0 = 0 ∧ b1 = 0 ∧ b2 = 0 ∧ b3 = 0 ∧ b4 = 0 ∧ b5 = 0 ∧ b6 = 0 ∧ b7 = 0) := by
  rintro ⟨-, h1, h2, h3, h4, h5, h6, h7⟩
  exact hf ((fractionOf_eq_zero _).mpr (by simp [h1, h2, h3, h4, h5, h6, h7]))

lemma roundHalfEven_ge_div (n d : Nat) : n / d ≤ roundHalfEven n d := by
  unfold roundHalfEven
  dsimp only
  split_ifs <;> omega

lemma roundHalfEven_le_div_succ (n d : Nat) : roundHalfEven n d ≤ n / d + 1 := by
  unfold roundHalfEven
  dsimp only
  split_ifs <;> omega

/-- Fractions below 2^53 survive the f64 cast unchanged. -/
lemma roundFrac53_eq_of_lt {f : Nat} (h : f < 2 ^ 53) : roundFrac53 f = f := by
  unfold roundFrac53
  rw [if_pos h]

/-- The f64 cast never turns a non-zero fraction into zero. -/
lemma roundFrac53_ne_zero {f : Nat} (hf : f ≠ 0) : roundFrac53 f ≠ 0 := by
  unfold roundFrac53
  dsimp only
  split_ifs with h1 h2 h3
  · exact hf
  · have := roundHalfEven_ge_div f 2
    omega
  · have := roundHalfEven_ge_div f 4
    omega
  · have := roundHalfEven_ge_div f 8
    omega

/-- The f64 cast of a fraction below 2^56 is at most 2^56 (the carry at
the very top of the range lands exactly on 2^56). -/
lemma roundFrac53_le {f : Nat} (h : f < 2 ^ 56) : roundFrac53 f ≤ 2 ^ 56 := by
  unfold roundFrac53
  dsimp only
  split_ifs with h1 h2 h3
  · omega
  · have := roundHalfEven_le_div_succ f 2
    omega
  · have := roundHalfEven_le_div_succ f 4
    omega
  · have := roundHalfEven_le_div_succ f 8
    omega

/-- The non-zero branch of parse_numeric_value renders exactly the
rational value the program decodes: the cast-rounded fraction under the
specification formula. -/
lemma parseNumericValue_render (b0 b1 b2 b3 b4 b5 b6 b7 : Nat) (rest : List Nat)
    (hb0 : b0 ≠ 46) (hf : fractionOf [b1,b2,b3,b4,b5,b6,b7] ≠ 0) :
    parseNumericValue (b0::b1::b2::b3::b4::b5::b6::b7::rest) =
      ibmRender (specNumValueF64 b0 [b1,b2,b3,b4,b5,b6,b7]) := by
  rw [parseNumericValue_cons, if_neg (notAllZero_of_fraction hf), if_neg hb0, if_neg hf]
  exact render_eq (b0.testBit 7) _ (b0 % 128) (roundFrac53_ne_zero hf)

/-- The cast rounding is observable: at the cell 4E FF FF FF FF FF FF FF
the 56-bit fraction 2^56 - 1 rounds up to 2^56 in the f64 cast, so the
program emits 72057594037927936 = 2^56 (exponent 78 makes the value the
fraction itself), while the rendering of the EXACT rational value of the
formula would be 72057594037927935. -/
lemma parseNumericValue_rounds_cast :
    parseNumericValue [78,255,255,255,255,255,255,255] =
      "72057594037927936".toList ∧
    ibmRender (specNumValue 78 [255,255,255,255,255,255,255]) =
      "72057594037927935".toList := by
  constructor
  · decide
  · have hfr : fractionOf [255,255,255,255,255,255,255] = 2 ^ 56 - 1 := by decide
    have htb : Nat.testBit 78 7 = false := by decide
    unfold specNumValue
    rw [hfr, htb]
    rw [← render_eq false (2 ^ 56 - 1) (78 % 128) (by norm_num)]
    decide

set_option maxRecDepth 100000

/-- C2 counterexample: the claim quantifies over every encoding whose
fraction and exponent satisfy `(fraction/2^56) * 16^(e-64) = 1`, but an
encoding may additionally carry the sign bit: byte 0 = 0xC1 has exponent
bits 65 and fraction 2^52, so the fraction/exponent condition for value 1
holds, yet the decoder emits "-1", not "1". -/
theorem c2_counterexample :
    specFracExp (fractionOf [16,0,0,0,0,0,0]) (193 % 128) = 1 ∧
    parseNumericValue [193,16,0,0,0,0,0,0] = ['-', '1'] ∧
    (['-', '1'] : List Char) ≠ ['1'] := by
  refine ⟨?_, by decide, by decide⟩
  have hfr : fractionOf [16,0,0,0,0,0,0] = 2 ^ 52 := by decide
  have h65 : (193 % 128 : Nat) = 65 := by norm_num
  rw [hfr, h65]
  unfold specFracExp
  rw [show ((65 : Nat) : ℤ) - 64 = 1 by norm_num, zpow_one]
  norm_num

/-- C2 amended: the numeric cell decoder maps an all-zero 8-byte cell to
"0"; maps any 8-byte cell whose first byte is 0x2E to the missing value;
for a zero fraction yields the signed zero "±0"; otherwise renders the
value sign * (rnd53(fraction) / 2^56) * 16^(e-64) — where sign is bit 7
of byte 0, e is bits 0-6 of byte 0, fraction is the big-endian
concatenation of bytes 1-7, and rnd53 is the rounding of the 56-bit
fraction to a 53-bit significand performed by the f64 cast — rounded at
six fractional digits; and every encoding with the SIGN BIT CLEAR whose
fraction and exponent satisfy (fraction/2^56) * 16^(e-64) = 1 decodes to
the string "1" (such a fraction is a power of two below 2^53, so the
cast is exact there). -/
theorem c2_amended :
    (∀ rest : List Nat, parseNumericValue (0::0::0::0::0::0::0::0::rest) = ['0']) ∧
    (∀ b1 b2 b3 b4 b5 b6 b7 : Nat, ∀ rest : List Nat,
      parseNumericValue (46::b1::b2::b3::b4::b5::b6::b7::rest) = []) ∧
    (∀ b0 b1 b2 b3 b4 b5 b6 b7 : Nat, ∀ rest : List Nat, b0 ≠ 46 →
      fractionOf [b1,b2,b3,b4,b5,b6,b7] = 0 →
      parseNumericValue (b0::b1::b2::b3::b4::b5::b6::b7::rest) =
        (if b0.testBit 7 then ['-','0'] else ['0'])) ∧
    (∀ b0 b1 b2 b3 b4 b5 b6 b7 : Nat, ∀ rest : List Nat, b0 ≠ 46 →
      fractionOf [b1,b2,b3,b4,b5,b6,b7] ≠ 0 →
      parseNumericValue (b0::b1::b2::b3::b4::b5::b6::b7::rest) =
        ibmRender (specNumValueF64 b0 [b1,b2,b3,b4,b5,b6,b7])) ∧
    (∀ b0 b1 b2 b3 b4 b5 b6 b7 : Nat, ∀ rest : List Nat,
      b0.testBit 7 = false → b1 < 256 → b2 < 256 → b3 < 256 → b4 < 256 →
      b5 < 256 → b6 < 256 → b7 < 256 →
      specFracExp (fractionOf [b1,b2,b3,b4,b5,b6,b7]) (b0 % 128) = 1 →
      parseNumericValue (b0::b1::b2::b3::b4::b5::b6::b7::rest) = ['1']) := by
  refine ⟨?_, ?_, ?_, ?_, ?_⟩
  · intro rest
    rw [parseNumericValue_cons]
    simp
  · intro b1 b2 b3 b4 b5 b6 b7 rest
    rw [parseNumericValue_cons]
    rw [if_neg (by rintro ⟨h, -⟩; omega), if_pos rfl]
  · intro b0 b1 b2 b3 b4 b5 b6 b7 rest hb0 hf
    have hall := (fractionOf_eq_zero _).mp hf
    simp only [List.mem_cons, List.not_mem_nil, or_false] at hall
    have h1 : b1 = 0 := hall b1 (by tauto)
    have h2 : b2 = 0 := hall b2 (by tauto)
    have h3 : b3 = 0 := hall b3 (by tauto)
    have h4 : b4 = 0 := hall b4 (by tauto)
    have h5 : b5 = 0 := hall b5 (by tauto)
    have h6 : b6 = 0 := hall b6 (by tauto)
    have h7 : b7 = 0 := hall b7 (by tauto)
    subst h1 h2 h3 h4 h5 h6 h7
    rw [parseNumericValue_cons]
    by_cases h0 : b0 = 0
    · subst h0
      simp
    · rw [if_neg (by rintro ⟨h, -⟩; exact h0 h), if_neg hb0, if_pos hf]
  · intro b0 b1 b2 b3 b4 b5 b6 b7 rest hb0 hf
    exact parseNumericValue_render b0 b1 b2 b3 b4 b5 b6 b7 rest hb0 hf
  · intro b0 b1 b2 b3 b4 b5 b6 b7 rest hsign h1 h2 h3 h4 h5 h6 h7 hone
    have hf56 : fractionOf [b1,b2,b3,b4,b5,b6,b7] < 2 ^ 56 := by
      apply fractionOf_lt_7 _ (by simp)
      intro b hb
      simp only [List.mem_cons, List.not_mem_nil, or_false] at hb
      rcases hb with rfl | rfl | rfl | rfl | rfl | rfl | rfl <;> assumption
    obtain ⟨he, hf0, hfe⟩ := specFracExp_eq_one_nat hf56 hone
    have hb46 : b0 ≠ 46 := by rintro rfl; norm_num at he
    have hb00 : b0 ≠ 0 := by rintro rfl; norm_num at he
    have h260 : (2 : Nat) ^ 260 ≤ 2 ^ (4 * (b0 % 128)) :=
      Nat.pow_le_pow_right (by norm_num) (by omega)
    have hmul : fractionOf [b1,b2,b3,b4,b5,b6,b7] * 2 ^ 260 ≤ 2 ^ 52 * 2 ^ 260 := by
      calc fractionOf [b1,b2,b3,b4,b5,b6,b7] * 2 ^ 260
          ≤ fractionOf [b1,b2,b3,b4,b5,b6,b7] * 2 ^ (4 * (b0 % 128)) :=
            Nat.mul_le_mul_left _ h260
        _ = 2 ^ 312 := hfe
        _ = 2 ^ 52 * 2 ^ 260 := by norm_num [← pow_add]
    have hf53 : fractionOf [b1,b2,b3,b4,b5,b6,b7] < 2 ^ 53 :=
      lt_of_le_of_lt (Nat.le_of_mul_le_mul_right hmul (by positivity)) (by norm_num)
    rw [parseNumericValue_cons, if_neg (by rintro ⟨h, -⟩; exact hb00 h), if_neg hb46,
      if_neg hf0, hsign, roundFrac53_eq_of_lt hf53]
    have hnum : fractionOf [b1,b2,b3,b4,b5,b6,b7] * 1000000 * 2 ^ (4 * (b0 % 128)) =
        1000000 * 2 ^ 312 := by
      calc fractionOf [b1,b2,b3,b4,b5,b6,b7] * 1000000 * 2 ^ (4 * (b0 % 128))
          = 1000000 * (fractionOf [b1,b2,b3,b4,b5,b6,b7] * 2 ^ (4 * (b0 % 128))) := by ring
        _ = 1000000 * 2 ^ 312 := by rw [hfe]
    rw [hnum, roundHalfEven_mul_self 1000000 (2 ^ 312) (by positivity)]
    decide

/-- C2 witness: the amended theorem applied at the all-zero cell, a
0x2E-led cell, and the reference encoding of 1 (byte 0 = 0x41 = exponent
65, fraction 2^52). -/
theorem c2_witness :
    parseNumericValue [0,0,0,0,0,0,0,0] = ['0'] ∧
    parseNumericValue [46,1,2,3,4,5,6,7] = [] ∧
    parseNumericValue [65,16,0,0,0,0,0,0] = ['1'] := by
  have hspec : specFracExp (fractionOf [16,0,0,0,0,0,0]) (65 % 128) = 1 := by
    have hfr : fractionOf [16,0,0,0,0,0,0] = 2 ^ 52 := by decide
    have h65 : (65 % 128 : Nat) = 65 := by norm_num
    rw [hfr, h65]
    unfold specFracExp
    rw [show ((65 : Nat) : ℤ) - 64 = 1 by norm_num, zpow_one]
    norm_num
  exact ⟨c2_amended.1 [], c2_amended.2.1 1 2 3 4 5 6 7 [],
    c2_amended.2.2.2.2 65 16 0 0 0 0 0 0 [] (by decide) (by decide) (by decide) (by decide)
      (by decide) (by decide) (by decide) (by decide) hspec⟩

/-- C3 counterexample: the claim says finite decoded values are rendered
TRUNCATED to six fractional digits.  The cell 3E 40 00 00 00 00 00 00
decodes to exactly 2^-10 = 0.0009765625 (the fraction 2^54 is a power of
two, so the f64 cast is exact here); the decoder emits the ROUNDED
rendering "0.000977", while the truncated rendering of the decoded value
is "0.000976". -/
theorem c3_counterexample :
    parseNumericValue [62,64,0,0,0,0,0,0] = "0.000977".toList ∧
    specTruncRender (specNumValueF64 62 [64,0,0,0,0,0,0]) = "0.000976".toList ∧
    "0.000977".toList ≠ "0.000976".toList := by
  refine ⟨by decide, ?_, by decide⟩
  have hfr : fractionOf [64,0,0,0,0,0,0] = 2 ^ 54 := by decide
  have hrnd : roundFrac53 (2 ^ 54) = 2 ^ 54 := by decide
  have htb : Nat.testBit 62 7 = false := by decide
  unfold specNumValueF64
  rw [hfr, hrnd, htb]
  simp only [Bool.false_eq_true, if_false, one_mul]
  unfold specTruncRender
  have hpos : 0 < specFracExp (2 ^ 54) (62 % 128) := specFracExp_pos _ _ (by positivity)
  rw [decide_eq_false (not_lt.mpr (le_of_lt hpos)), abs_of_pos hpos, specFracExp_scale,
    floorQ_natDiv, Int.toNat_natCast]
  decide

/-- C3 amended: for every numeric cell (bytes below 256) that is not the
missing marker and has a non-zero fraction, the emitted string is the
decimal rendering of the decoded IBM floating-point value — the
cast-rounded fraction under the formula — ROUNDED to six fractional
digits (ties to even), with trailing zeros and a trailing decimal point
stripped; moreover the decoded magnitude is at most 16^63, so the value
is always finite and the non-finite missing-value branch of the source
is unreachable. -/
theorem c3_amended (b0 b1 b2 b3 b4 b5 b6 b7 : Nat) (rest : List Nat)
    (hb0 : b0 ≠ 46) (hf : fractionOf [b1,b2,b3,b4,b5,b6,b7] ≠ 0)
    (h1 : b1 < 256) (h2 : b2 < 256) (h3 : b3 < 256) (h4 : b4 < 256)
    (h5 : b5 < 256) (h6 : b6 < 256) (h7 : b7 < 256) :
    parseNumericValue (b0::b1::b2::b3::b4::b5::b6::b7::rest) =
      ibmRender (specNumValueF64 b0 [b1,b2,b3,b4,b5,b6,b7]) ∧
    |specNumValueF64 b0 [b1,b2,b3,b4,b5,b6,b7]| ≤ 16 ^ 63 := by
  refine ⟨parseNumericValue_render b0 b1 b2 b3 b4 b5 b6 b7 rest hb0 hf, ?_⟩
  rw [abs_specNumValueF64]
  apply specFracExp_le_bound
  · apply roundFrac53_le
    apply fractionOf_lt_7 _ (by simp)
    intro b hb
    simp only [List.mem_cons, List.not_mem_nil, or_false] at hb
    rcases hb with rfl | rfl | rfl | rfl | rfl | rfl | rfl <;> assumption
  · omega

/-- C3 witness: the amended theorem applied at the 2^-10 cell. -/
theorem c3_witness :
    parseNumericValue [62,64,0,0,0,0,0,0] =
      ibmRender (specNumValueF64 62 [64,0,0,0,0,0,0]) ∧
    |specNumValueF64 62 [64,0,0,0,0,0,0]| ≤ 16 ^ 63 :=
  c3_amended 62 64 0 0 0 0 0 0 [] (by decide) (by decide) (by decide) (by decide)
    (by decide) (by decide) (by decide) (by decide) (by decide)

/-- Elimination principle: a successful variable stage produced its
variables by normalizing the sorted non-empty record list. -/
lemma varStage_ok_elim {data : List Nat} {vars : List XPTVariable} {obsStart : Nat}
    (h : varStage data = .ok (vars, obsStart)) :
    ∃ records, records ≠ [] ∧ vars = normalizeVariables (sortRecords records) := by
  unfold varStage at h
  split at h <;> try exact Except.noConfusion h
  split at h <;> try exact Except.noConfusion h
  split at h <;> try exact Except.noConfusion h
  dsimp only at h
  split at h <;> try exact Except.noConfusion h
  split at h <;> try exact Except.noConfusion h
  split at h <;> try exact Except.noConfusion h
  split at h <;> try exact Except.noConfusion h
  rename_i hempty
  simp only [Except.ok.injEq, Prod.mk.injEq] at h
  refine ⟨_, ?_, h.1.symm⟩
  intro hnil
  exact hempty (by rw [hnil]; rfl)

/-- Elimination principle: a successful parse passed through every stage. -/
lemma parse_ok_elim {data : List Nat} {fname : Option (List Char)} {ds : XPTDataset}
    (h : parse data fname = .ok ds) :
    ∃ vars obsStart rowWidth obs,
      varStage data = .ok (vars, obsStart) ∧
      ds.vars = vars ∧
      (vars.map (·.length)).sum ≠ 0 ∧
      resolveRowWidth (data.drop obsStart) ((vars.map (·.length)).sum) =
        some (rowWidth, obs) ∧
      rowWidth ≤ obs.length ∧
      ds.rows = buildRows obs vars ((vars.map (·.length)).sum) rowWidth
        (obs.length / rowWidth) := by
  unfold parse at h
  split at h <;> try exact Except.noConfusion h
  rename_i vars obsStart heq
  dsimp only at h
  split at h <;> try exact Except.noConfusion h
  rename_i hsw
  split at h <;> try exact Except.noConfusion h
  rename_i p rowWidth obs heq2
  split at h <;> try exact Except.noConfusion h
  rename_i hobslen
  simp only [Except.ok.injEq] at h
  refine ⟨vars, obsStart, rowWidth, obs, heq, ?_, hsw, heq2, by omega, ?_⟩
  · rw [← h]
  · rw [← h]

/-- Every normalized variable has a non-empty name and label and a
type-clamped length. -/
lemma normalizeVariables_mem {ordered : List (Nat × NameStringRecord)} {v : XPTVariable}
    (hv : v ∈ normalizeVariables ordered) :
    v.name ≠ [] ∧ v.label ≠ [] ∧
      (v.varType = .Numeric → 8 ≤ v.length) ∧ (v.varType = .Character → 1 ≤ v.length) := by
  unfold normalizeVariables at hv
  obtain ⟨p, hp, rfl⟩ := List.mem_map.mp hv
  dsimp only
  have hname : (if p.2.2.name.isEmpty then 'V' :: 'A' :: 'R' :: natToChars (p.1 + 1)
      else p.2.2.name) ≠ [] := by
    cases hn : p.2.2.name.isEmpty
    · simp only [Bool.false_eq_true, if_false]
      intro hcon
      rw [hcon] at hn
      simp at hn
    · simp
  refine ⟨hname, ?_, ?_, ?_⟩
  · cases hl : p.2.2.label.isEmpty
    · simp only [Bool.false_eq_true, if_false]
      intro hcon
      rw [hcon] at hl
      simp at hl
    · simpa using hname
  · by_cases ht : p.2.2.varType = 1 <;> simp [ht]
  · by_cases ht : p.2.2.varType = 1 <;> simp [ht]

lemma buildRowsAux_mem {obs : List Nat} {vars : List XPTVariable} {sw w : Nat} :
    ∀ fuel idx row, row ∈ buildRowsAux obs vars sw w fuel idx →
      row.values.length = vars.length := by
  intro fuel
  induction fuel with
  | zero => intro idx row hrow; simp [buildRowsAux] at hrow
  | succ n ih =>
    intro idx row hrow
    unfold buildRowsAux at hrow
    split at hrow
    · simp at hrow
    · rw [List.mem_append] at hrow
      rcases hrow with hrow | hrow
      · split at hrow
        · rename_i hlen
          simp only [List.mem_singleton] at hrow
          rw [hrow]
          exact hlen
        · simp at hrow
      · exact ih _ _ hrow

lemma decodeCells_length : ∀ (vars : List XPTVariable) (rowData : List Nat) (offset : Nat),
    offset + (vars.map (·.length)).sum ≤ rowData.length →
    (decodeCells rowData vars offset).length = vars.length := by
  intro vars
  induction vars with
  | nil => intro rowData offset _; simp [decodeCells]
  | cons v rest ih =>
    intro rowData offset hle
    rw [List.map_cons, List.sum_cons] at hle
    unfold decodeCells
    rw [if_neg (by omega)]
    simp only [List.length_cons]
    rw [ih rowData (offset + v.length) (by omega)]

lemma buildRowsAux_length {obs : List Nat} {vars : List XPTVariable} {sw w : Nat}
    (hsw : (vars.map (·.length)).sum = sw) (hw : sw ≤ w) :
    ∀ fuel idx, (idx + fuel) * w ≤ obs.length →
      (buildRowsAux obs vars sw w fuel idx).length = fuel := by
  intro fuel
  induction fuel with
  | zero => intro idx _; simp [buildRowsAux]
  | succ n ih =>
    intro idx hle
    unfold buildRowsAux
    have hrow : idx * w + sw ≤ obs.length := by
      have h1 : (idx + 1) * w ≤ (idx + (n + 1)) * w := Nat.mul_le_mul_right _ (by omega)
      have h2 : idx * w + sw ≤ (idx + 1) * w := by
        rw [Nat.add_mul, one_mul]
        omega
      omega
    rw [if_neg (by omega)]
    dsimp only
    have hrdlen : ((obs.drop (idx * w)).take sw).length = sw := by
      rw [List.length_take, List.length_drop]
      omega
    have hvals : (decodeCells ((obs.drop (idx * w)).take sw) vars 0).length = vars.length := by
      apply decodeCells_length
      omega
    rw [if_pos hvals]
    have hnext : ((idx + 1) + n) * w ≤ obs.length := by
      rw [show (idx + 1) + n = idx + (n + 1) by omega]
      exact hle
    simp only [List.length_append, List.length_cons, List.length_nil]
    rw [ih (idx + 1) hnext]
    omega

/-- With at least one full record in the descriptor block, the record
collection loop cannot come back empty: a 140-byte slice always parses. -/
lemma collectNameRecords_ne_nil {block : List Nat} {recordCount : Nat}
    (hblock : nameStringRecordLength ≤ block.length)
    (hcount : recordCount ≠ 0) :
    collectNameRecords block recordCount ≠ [] := by
  intro hnil
  have h0 : (0 : Nat) ∈ List.range recordCount :=
    List.mem_range.mpr (Nat.pos_of_ne_zero hcount)
  have hguard : (0 + 1) * nameStringRecordLength ≤ block.length := by simpa using hblock
  have hlen : ¬ ((block.drop 0).take nameStringRecordLength).length < nameStringRecordLength := by
    simp only [List.drop_zero, List.length_take]
    omega
  have hparse : parseNameString ((block.drop 0).take nameStringRecordLength) =
      some { varType := u16be (((block.drop 0).take nameStringRecordLength).getD 0 0)
               (((block.drop 0).take nameStringRecordLength).getD 1 0)
             length := u16be (((block.drop 0).take nameStringRecordLength).getD 4 0)
               (((block.drop 0).take nameStringRecordLength).getD 5 0)
             position := u16be (((block.drop 0).take nameStringRecordLength).getD 6 0)
               (((block.drop 0).take nameStringRecordLength).getD 7 0)
             name := asciiString ((block.drop 0).take nameStringRecordLength) 8 8
             label := asciiString ((block.drop 0).take nameStringRecordLength) 16 40
             format := asciiString ((block.drop 0).take nameStringRecordLength) 56 8 } := by
    unfold parseNameString
    rw [if_neg hlen]
  have hmem : _ ∈ collectNameRecords block recordCount :=
    List.mem_filterMap.mpr ⟨0, h0, by rw [if_pos hguard]; exact hparse⟩
  rw [hnil] at hmem
  simp at hmem

/-- The variable stage can never fail with DescriptorParseFailure. -/
lemma varStage_no_dpf (data : List Nat) :
    varStage data ≠ .error .DescriptorParseFailure := by
  intro h
  unfold varStage at h
  split at h <;> try simp at h
  split at h <;> try simp at h
  split at h <;> try simp at h
  try dsimp only at h
  split at h <;> try simp at h
  split at h <;> try simp at h
  rename_i hblock
  split at h <;> try simp at h
  rename_i hcount
  refine collectNameRecords_ne_nil ?_ hcount h
  rw [List.length_take, List.length_drop]
  omega

instance {ε α : Type} [DecidableEq ε] [DecidableEq α] : DecidableEq (Except ε α) := by
  intro a b
  cases a <;> cases b
  case error.error x y =>
    exact if h : x = y then isTrue (by rw [h]) else isFalse (by intro hh; injection hh; contradiction)
  case ok.ok x y =>
    exact if h : x = y then isTrue (by rw [h]) else isFalse (by intro hh; injection hh; contradiction)
  all_goals exact isFalse (fun h => Except.noConfusion h)

/-- A minimal well-formed transport buffer: the NAMESTR header, one
140-byte descriptor record (numeric variable "X" of length 8, position
1) inside a 160-byte block, the OBS header, and a single 8-byte all-zero
observation. -/
def sampleData : List Nat :=
  namestrHeader ++ List.replicate 32 32 ++
  ([0,1,0,0,0,8,0,1] ++ (88 :: List.replicate 7 32) ++ List.replicate 124 32) ++
  List.replicate 20 32 ++ obsHeader ++ List.replicate 32 32 ++ List.replicate 8 0

/-- The dataset decoded from `sampleData`. -/
def dsSample : XPTDataset :=
  { title := "XPT Dataset".toList, createdDate := none, modifiedDate := none,
    vars := [{ name := ['X'], label := ['X'], varType := .Numeric, length := 8 }],
    rows := [{ values := [['0']] }] }

/-- C6: in every successfully decoded dataset, each variable name and
label is non-empty, and each length is at least 8 for Numeric and at
least 1 for Character variables (the normalization stage is a total
function and never fails). -/
theorem c6_normalization : ∀ (data : List Nat) (fname : Option (List Char)) (ds : XPTDataset),
    parse data fname = Except.ok ds →
    ∀ v ∈ ds.vars, v.name ≠ [] ∧ v.label ≠ [] ∧
      (v.varType = .Numeric → 8 ≤ v.length) ∧ (v.varType = .Character → 1 ≤ v.length) := by
  intro data fname ds h v hv
  obtain ⟨vars, obsStart, w, obs, hvs, hdv, -, -, -, -⟩ := parse_ok_elim h
  obtain ⟨records, -, hnorm⟩ := varStage_ok_elim hvs
  rw [hdv, hnorm] at hv
  exact normalizeVariables_mem hv

/-- C6 witness: the amended invariant instantiated on the decoded sample
dataset's single variable. -/
theorem c6_witness :
    (⟨['X'], ['X'], .Numeric, 8⟩ : XPTVariable).name ≠ [] ∧
    (⟨['X'], ['X'], .Numeric, 8⟩ : XPTVariable).label ≠ [] ∧
    ((⟨['X'], ['X'], .Numeric, 8⟩ : XPTVariable).varType = .Numeric →
      8 ≤ (⟨['X'], ['X'], .Numeric, 8⟩ : XPTVariable).length) ∧
    ((⟨['X'], ['X'], .Numeric, 8⟩ : XPTVariable).varType = .Character →
      1 ≤ (⟨['X'], ['X'], .Numeric, 8⟩ : XPTVariable).length) :=
  c6_normalization sampleData none dsSample (by decide)
    ⟨['X'], ['X'], .Numeric, 8⟩ (by decide)

/-- C7: every retained row of a successfully decoded dataset has exactly
one value per variable; no partially decoded row is emitted. -/
theorem c7_row_shape : ∀ (data : List Nat) (fname : Option (List Char)) (ds : XPTDataset),
    parse data fname = Except.ok ds →
    ∀ row ∈ ds.rows, row.values.length = ds.vars.length := by
  intro data fname ds h row hrow
  obtain ⟨vars, obsStart, w, obs, hvs, hdv, -, -, -, hdr⟩ := parse_ok_elim h
  rw [hdr] at hrow
  rw [hdv]
  exact buildRowsAux_mem _ _ _ hrow

/-- C7 witness: the single sample row has as many values as the dataset
has variables. -/
theorem c7_witness :
    (⟨[['0']]⟩ : XPTRow).values.length = dsSample.vars.length :=
  c7_row_shape sampleData none dsSample (by decide) ⟨[['0']]⟩ (by decide)

/-- C9: on every successful decode no row is dropped — the storage width
never exceeds the resolved stride, and the number of emitted rows equals
exactly the truncated observation length divided by the resolved
stride. -/
theorem c9_row_count : ∀ (data : List Nat) (fname : Option (List Char)) (ds : XPTDataset)
    (vars : List XPTVariable) (obsStart w : Nat) (obs : List Nat),
    varStage data = Except.ok (vars, obsStart) →
    parse data fname = Except.ok ds →
    resolveRowWidth (data.drop obsStart) ((vars.map (·.length)).sum) = some (w, obs) →
    (vars.map (·.length)).sum ≤ w ∧ ds.rows.length = obs.length / w := by
  intro data fname ds vars obsStart w obs hvs h hres
  obtain ⟨vars', obsStart', w', obs', hvs', hdv, hsw, hres', hlen, hdr⟩ := parse_ok_elim h
  rw [hvs] at hvs'
  obtain ⟨rfl, rfl⟩ : vars = vars' ∧ obsStart = obsStart' := by
    simpa [Prod.ext_iff] using hvs'
  rw [hres] at hres'
  obtain ⟨rfl, rfl⟩ : w = w' ∧ obs = obs' := by
    simpa [Prod.ext_iff] using hres'
  have hsw0 : 0 < (vars.map (·.length)).sum := Nat.pos_of_ne_zero hsw
  obtain ⟨-, hle, hw0, hmod, -⟩ := resolveRowWidth_bounds hsw0 hres
  refine ⟨hle, ?_⟩
  rw [hdr]
  unfold buildRows
  apply buildRowsAux_length rfl hle
  rw [Nat.zero_add]
  exact Nat.le_of_eq (Nat.div_mul_cancel (Nat.dvd_of_mod_eq_zero hmod))

/-- C9 witness: on the sample buffer the resolver yields stride 8 with
the full 8-byte region and exactly one row is emitted. -/
theorem c9_witness :
    (dsSample.vars.map (·.length)).sum ≤ 8 ∧
    dsSample.rows.length = ([0,0,0,0,0,0,0,0] : List Nat).length / 8 :=
  c9_row_count sampleData none dsSample dsSample.vars 320 8 [0,0,0,0,0,0,0,0]
    (by decide) (by decide) (by decide)

/-- C10: the DescriptorParseFailure branch (zero descriptor records
parsed) is unreachable — whenever both headers are found and the block
holds at least 140 bytes, the 140-byte record slices always parse, so
the decoder never returns this error on any input. -/
theorem c10_descriptor_failure_unreachable : ∀ (data : List Nat) (fname : Option (List Char)),
    parse data fname ≠ Except.error XPTError.DescriptorParseFailure := by
  intro data fname h
  unfold parse at h
  split at h
  · rename_i e heq
    have he : e = XPTError.DescriptorParseFailure := by simpa using h
    subst he
    exact varStage_no_dpf data heq
  · dsimp only at h
    split at h <;> try simp at h
    split at h <;> try simp at h
    split at h <;> simp at h

/-- Pure-ASCII byte lists decode strictly, one character per byte. -/
lemma utf8StrictAux_ascii : ∀ (fuel : Nat) (l : List Nat), l.length ≤ fuel →
    (∀ b ∈ l, b < 128) → utf8StrictAux fuel l = some (l.map Char.ofNat) := by
  intro fuel
  induction fuel with
  | zero =>
    intro l hl _
    rw [Nat.le_zero, List.length_eq_zero] at hl
    subst hl
    rfl
  | succ n ih =>
    intro l hl hb
    cases l with
    | nil => rfl
    | cons b rest =>
      have hb0 : b < 128 := hb b (List.mem_cons_self _ _)
      unfold utf8StrictAux
      rw [if_pos hb0, ih rest (by simpa using hl) (fun x hx => hb x (List.mem_cons_of_mem _ hx))]
      rfl

lemma utf8Strict_ascii (l : List Nat) (hb : ∀ b ∈ l, b < 128) :
    utf8Strict l = some (l.map Char.ofNat) :=
  utf8StrictAux_ascii l.length l (le_refl _) hb

/-- A split never produces an empty piece list. -/
lemma splitOnSep_ne_nil (p : Char → Bool) (l : List Char) : splitOnSep p l ≠ [] := by
  cases l with
  | nil => simp [splitOnSep]
  | cons c rest =>
    unfold splitOnSep
    split
    · simp
    · split <;> simp

/-- Splitting a separator-free prefix followed by a separator emits the
prefix as the first piece. -/
lemma splitOnSep_sep_cons (p : Char → Bool) (t : List Char) (d : Char) (s : List Char)
    (ht : ∀ c ∈ t, p c = false) (hd : p d = true) :
    splitOnSep p (t ++ d :: s) = t :: splitOnSep p s := by
  induction t with
  | nil =>
    simp only [List.nil_append]
    conv_lhs => unfold splitOnSep
    rw [if_pos hd]
  | cons c t ih =>
    have hc : p c = false := ht c (List.mem_cons_self _ _)
    have ih2 := ih (fun x hx => ht x (List.mem_cons_of_mem _ hx))
    simp only [List.cons_append]
    conv_lhs => unfold splitOnSep
    rw [if_neg (by simp [hc]), ih2]

/-- The first non-empty token of such a text is the separator-free
prefix. -/
lemma firstToken_of_leading (p : Char → Bool) (t : List Char) (d : Char) (s : List Char)
    (htne : t ≠ []) (ht : ∀ c ∈ t, p c = false) (hd : p d = true) :
    ((splitOnSep p (t ++ d :: s)).filter (fun x => !x.isEmpty)).head? = some t := by
  rw [splitOnSep_sep_cons p t d s ht hd]
  rw [List.filter_cons]
  rw [if_pos (by simpa using htne)]
  rfl

/-- A path stem, when produced, is never the empty string. -/
lemma fileStem_ne_nil {path s : List Char} (h : fileStem path = some s) : s ≠ [] := by
  unfold fileStem at h
  set comps := (splitOnSep (fun c => c == '/') path).filter
    (fun c => !c.isEmpty && c ≠ ['.']) with hcomps
  dsimp only at h
  split at h
  · exact absurd h (by simp)
  rename_i fname hlast
  have hfmem : fname ∈ comps := by
    obtain ⟨hne, heq⟩ := List.mem_getLast?_eq_getLast (l := comps) (x := fname)
      (by simp [hlast])
    rw [heq]
    exact List.getLast_mem hne
  have hfne : fname ≠ [] := by
    have := List.of_mem_filter hfmem
    simp only [Bool.and_eq_true] at this
    simpa using this.1
  split at h
  · exact absurd h (by simp)
  try dsimp only at h
  intro hs
  subst hs
  split at h
  · simp only [Option.some.injEq] at h
    exact hfne h
  split at h
  · simp only [Option.some.injEq] at h
    exact hfne h
  rename_i hk
  simp only [Option.some.injEq] at h
  rw [List.take_eq_nil_iff] at h
  rcases h with h | h
  · exact hk h
  · exact hfne h

/-- Mapping byte values of an ASCII literal back through Char.ofNat is
the identity on the literal. -/
lemma strBytes_map_ofNat (s : String) : (strBytes s).map Char.ofNat = s.toList := by
  unfold strBytes
  rw [List.map_map]
  conv_rhs => rw [← List.map_id s.toList]
  apply List.map_congr_left
  intro c _
  exact Char.ofNat_toNat c

/-- C8 counterexample: the dataset title CAN be empty.  When the buffer
is the MEMBER NAME marker followed by a single tab byte, the first
non-empty token after the marker is the tab, whose trim is the empty
string — the decoder returns it as the title. -/
theorem c8_counterexample :
    inferDatasetTitle (memberNameMarker ++ [9]) none = [] := by decide

/-- C8 amended: when the buffer contains the MEMBER NAME marker followed
by "MYDATA  " and further ASCII bytes, the title is "MYDATA"; when the
marker is absent, the title is the filename-hint stem (hint
"/tmp/foo.xpt" yields "foo") or, with no hint, the fixed default title —
and on those marker-absent paths the title is never empty.  (When the
marker is present the first token may trim to an empty title, as the
counterexample shows, so the never-empty guarantee only holds for the
fallback paths.)  Title inference is total and never fails the decode. -/
theorem c8_amended :
    (∀ (rest : List Nat) (fb : Option (List Char)), rest.all (· < 128) = true →
      inferDatasetTitle (memberNameMarker ++ strBytes "MYDATA  " ++ rest) fb =
        "MYDATA".toList) ∧
    (∀ data : List Nat, findBytes data memberNameMarker = none →
      inferDatasetTitle data (some "/tmp/foo.xpt".toList) = "foo".toList) ∧
    (∀ data : List Nat, findBytes data memberNameMarker = none →
      inferDatasetTitle data none = "XPT Dataset".toList) ∧
    (∀ (data : List Nat) (fb : Option (List Char)),
      findBytes data memberNameMarker = none → inferDatasetTitle data fb ≠ []) := by
  have hfallback : ∀ fb : Option (List Char), fallbackTitle fb ≠ [] := by
    intro fb
    cases fb with
    | none => decide
    | some f =>
      unfold fallbackTitle
      dsimp only
      cases hstem : fileStem f with
      | none => simp only [hstem]; decide
      | some stem => simp only [hstem]; exact fileStem_ne_nil hstem
  refine ⟨?_, ?_, ?_, ?_⟩
  · intro rest fb hrest
    set data := memberNameMarker ++ strBytes "MYDATA  " ++ rest with hdata
    have hfind : findBytes data memberNameMarker = some 0 := by
      unfold findBytes findBytesAux
      rw [if_pos (List.isPrefixOf_iff_prefix.mpr
        (by rw [hdata, List.append_assoc]; exact List.prefix_append _ _))]
    unfold inferDatasetTitle
    rw [hfind]
    dsimp only
    have hlen : data.length = 20 + rest.length := by
      rw [hdata]
      simp [memberNameMarker, strBytes]
      omega
    have hN : min (0 + memberNameMarker.length + 80) data.length -
        (0 + memberNameMarker.length) = min 92 (20 + rest.length) - 12 := by
      rw [hlen]
      simp [memberNameMarker, strBytes]
    have hdrop : data.drop (0 + memberNameMarker.length) = strBytes "MYDATA  " ++ rest := by
      rw [hdata, List.append_assoc, Nat.zero_add, List.drop_left]
    rw [hN, hdrop]
    set N := min 92 (20 + rest.length) - 12 with hNdef
    have hN8 : 8 ≤ N := by omega
    have hlen8 : (strBytes "MYDATA  ").length = 8 := by decide
    have htake : (strBytes "MYDATA  " ++ rest).take N =
        strBytes "MYDATA  " ++ rest.take (N - 8) := by
      rw [List.take_append_eq_append_take, hlen8,
        List.take_of_length_le (hlen8 ▸ hN8)]
    rw [htake]
    have hmd : ∀ b ∈ strBytes "MYDATA  ", b < 128 := by decide
    have hascii : ∀ b ∈ strBytes "MYDATA  " ++ rest.take (N - 8), b < 128 := by
      intro b hb
      rcases List.mem_append.mp hb with hb | hb
      · exact hmd b hb
      · exact of_decide_eq_true (List.all_eq_true.mp hrest b (List.mem_of_mem_take hb))
    rw [utf8Strict_ascii _ hascii]
    dsimp only
    rw [List.map_append, strBytes_map_ofNat]
    have hshape : "MYDATA  ".toList ++ (rest.take (N - 8)).map Char.ofNat =
        "MYDATA".toList ++ ' ' :: (' ' :: (rest.take (N - 8)).map Char.ofNat) := by
      rfl
    rw [hshape]
    rw [firstToken_of_leading _ _ _ _ (by decide) (by decide) (by decide)]
    dsimp only
    decide
  · intro data hnone
    unfold inferDatasetTitle
    rw [hnone]
    dsimp only
    decide
  · intro data hnone
    unfold inferDatasetTitle
    rw [hnone]
    dsimp only
    decide
  · intro data fb hnone
    unfold inferDatasetTitle
    rw [hnone]
    dsimp only
    exact hfallback fb

/-- C8 witness: the amended theorem applied at a concrete marker buffer
and at a concrete marker-free buffer with the hint. -/
theorem c8_witness :
    inferDatasetTitle (memberNameMarker ++ strBytes "MYDATA  " ++ [65, 66]) none =
      "MYDATA".toList ∧
    inferDatasetTitle [1, 2, 3] (some "/tmp/foo.xpt".toList) = "foo".toList :=
  ⟨c8_amended.1 [65, 66] none (by decide), c8_amended.2.1 [1, 2, 3] (by decide)⟩

end XPT
